import Mathlib

/-
  Verification of the risk-engine specification against the code base.

  The repository ships the React frontend of the system; the numerical core
  (return building, the three VaR/ES estimators, Euler allocation, request
  validation) lives behind the HTTP API and is not part of the source tree.
  Definitions for that core are therefore modelled from the specification
  (sections 3, 4, 6, 7 and 8 of spec.md) and are marked as such in their
  doc comments.  Frontend behaviour (the portfolio store, the risk badge,
  the component-VaR chart and table) is embedded directly from the
  TypeScript sources.

  Floating-point doubles are modelled by exact rationals for the executable
  estimator pipeline, and by real numbers for the closed-form parametric
  (Gaussian) estimator.
-/

namespace RiskEngine

/-! ## Portfolio valuation (spec section 3, WeightVector) -/

/-- Modelled from the spec: a holding is a (symbol, shares) pair; the
portfolio value is `Σ shares_i × P_i` over the holdings, with `P_i` the
latest price of symbol `i`. -/
def portfolioValue (holdings : List (String × ℚ)) (price : String → ℚ) : ℚ :=
  (holdings.map (fun h => h.2 * price h.1)).sum

/-- Modelled from the spec: per-symbol dollar weight
`w_i = shares_i × P_i / PortfolioValue`. -/
def weightOf (holdings : List (String × ℚ)) (price : String → ℚ) (h : String × ℚ) : ℚ :=
  h.2 * price h.1 / portfolioValue holdings price

/-- The full weight vector, in holding order. -/
def weights (holdings : List (String × ℚ)) (price : String → ℚ) : List ℚ :=
  holdings.map (weightOf holdings price)

/-- Modelled from the spec: `(Σw)_i`, the `i`-th entry of the covariance
matrix applied to the weight vector. -/
def sigmaW (n : ℕ) (cov : Fin n → Fin n → ℚ) (w : Fin n → ℚ) (i : Fin n) : ℚ :=
  ∑ j, cov i j * w j

/-- Modelled from the spec: the portfolio variance `σ_p² = wᵀΣw`. -/
def portfolioVariance (n : ℕ) (cov : Fin n → Fin n → ℚ) (w : Fin n → ℚ) : ℚ :=
  ∑ i, w i * sigmaW n cov w i

/-- Modelled from the spec: Component VaR
`CVaR_i = w_i × (Σw)_i / σ_p² × TotalVaR`, in dollars.  No post-hoc
normalization appears in the formula. -/
def componentVaRDollars (n : ℕ) (cov : Fin n → Fin n → ℚ) (w : Fin n → ℚ)
    (totalVaR : ℚ) (i : Fin n) : ℚ :=
  w i * sigmaW n cov w i / portfolioVariance n cov w * totalVaR

/-! ## Empirical quantile and tail mean (spec sections 4.2 and 4.4)

The historical estimator takes the empirical quantile of the realized
horizon-return series; the Monte Carlo estimator applies the same
quantile / tail-mean logic to the simulated outcomes. -/

/-- Ascending sort of a return series. -/
def sortAsc (l : List ℚ) : List ℚ :=
  l.mergeSort (fun a b => decide (a ≤ b))

/-- Modelled from the spec: the index of the empirical `(1-c)` quantile in
an ascending sample of size `n`: `⌊(1-c)·n⌋`. -/
def quantileIndex (c : ℚ) (n : ℕ) : ℕ :=
  (⌊(1 - c) * (n : ℚ)⌋).toNat

/-- The return at the empirical quantile: `(1-c)` of the sample is at or
below this value. -/
def empiricalQuantile (c : ℚ) (rets : List ℚ) : ℚ :=
  (sortAsc rets).getD (quantileIndex c rets.length) 0

/-- Modelled from the spec: VaR at confidence `c` is the loss (sign-flipped
return) at the empirical `(1-c)` quantile of the horizon-return sample. -/
def empiricalVaR (c : ℚ) (rets : List ℚ) : ℚ :=
  -(empiricalQuantile c rets)

/-- The realized returns at or beyond the VaR threshold. -/
def tailReturns (c : ℚ) (rets : List ℚ) : List ℚ :=
  (sortAsc rets).filter (fun x => decide (x ≤ empiricalQuantile c rets))

/-- Modelled from the spec: ES is the mean of all realized losses at or
beyond the VaR threshold. -/
def empiricalES (c : ℚ) (rets : List ℚ) : ℚ :=
  -((tailReturns c rets).sum / ((tailReturns c rets).length : ℚ))

/-- Modelled from the spec: the portfolio's realized return at historical
date `t`, using current weights applied retroactively:
`portfolio_return_t = Σ w_i × r_{i,t}`.  `ret s t` is the (precomputed,
per-symbol) log return of symbol `s` at date index `t`. -/
def portfolioReturnAt (holdings : List (String × ℚ)) (price : String → ℚ)
    (ret : String → ℕ → ℚ) (t : ℕ) : ℚ :=
  (holdings.map (fun h => weightOf holdings price h * ret h.1 t)).sum

/-- The realized portfolio-return series over `T` aligned dates. -/
def portfolioReturns (holdings : List (String × ℚ)) (price : String → ℚ)
    (ret : String → ℕ → ℚ) (T : ℕ) : List ℚ :=
  (List.range T).map (portfolioReturnAt holdings price ret)

/-- Modelled from the spec: horizon scaling by non-overlapping sums of
`h` consecutive daily returns (the documented design choice). -/
def blockSums (h : ℕ) (l : List ℚ) : List ℚ :=
  if hcond : 0 < h ∧ h ≤ l.length then
    (l.take h).sum :: blockSums h (l.drop h)
  else []
termination_by l.length
decreasing_by
  simp only [List.length_drop]
  omega

/-- The horizon-scaled realized return sample used by the historical
estimator. -/
def historicalSeries (holdings : List (String × ℚ)) (price : String → ℚ)
    (ret : String → ℕ → ℚ) (T horizon : ℕ) : List ℚ :=
  blockSums horizon (portfolioReturns holdings price ret T)

/-- Modelled from the spec: historical VaR is the empirical quantile of the
horizon-scaled realized return sample. -/
def historicalVaR (c : ℚ) (holdings : List (String × ℚ)) (price : String → ℚ)
    (ret : String → ℕ → ℚ) (T horizon : ℕ) : ℚ :=
  empiricalVaR c (historicalSeries holdings price ret T horizon)

/-- Modelled from the spec: historical ES is the tail mean of the same
sample. -/
def historicalES (c : ℚ) (holdings : List (String × ℚ)) (price : String → ℚ)
    (ret : String → ℕ → ℚ) (T horizon : ℕ) : ℚ :=
  empiricalES c (historicalSeries holdings price ret T horizon)

/-! ## Monte Carlo estimator (spec section 4.4)

Randomness is injected (spec section 9); given the seed, the simulated
horizon outcomes are a fixed list, and the estimator applies the same
empirical quantile / tail-mean logic to it. -/

/-- Modelled from the spec: Monte Carlo VaR is the empirical quantile
across the simulated outcomes. -/
def mcVaR (c : ℚ) (outcomes : List ℚ) : ℚ :=
  empiricalVaR c outcomes

/-- Modelled from the spec: Monte Carlo ES is the tail mean beyond VaR
across the simulated outcomes. -/
def mcES (c : ℚ) (outcomes : List ℚ) : ℚ :=
  empiricalES c outcomes

/-! ## Request validation and symbol resolution (spec sections 6 and 7) -/

/-- The three estimation methods (spec section 6). -/
inductive Method where
  | historical
  | parametric
  | monte_carlo
deriving DecidableEq

/-- The three Monte Carlo return-generation modes (spec section 4.4). -/
inductive MCMode where
  | bootstrap
  | normal
  | student_t
deriving DecidableEq

/-- Modelled from the spec: the common request shape (spec section 6). -/
structure VaRRequest where
  holdings : List (String × ℚ)
  method : Method
  confidence : ℚ
  horizon_days : ℤ
  lookback_days : ℤ
  mc_mode : Option MCMode
  df_t : Option ℤ

/-- Modelled from the spec: the error taxonomy of section 7. -/
inductive RiskError where
  | validationError (detail : String)
  | unknownSymbolError (symbols : List String)
  | insufficientDataError (minRequired : ℤ)
deriving DecidableEq

/-- Modelled from the spec: request validation — confidence ∉ (0,1),
horizon_days < 1, df_t < 3 for student_t mode, or empty holdings fail with
a `ValidationError` before anything is computed. -/
def validate (r : VaRRequest) : Except RiskError Unit :=
  if r.confidence ≤ 0 ∨ 1 ≤ r.confidence then
    Except.error (RiskError.validationError "confidence not in the open interval (0,1)")
  else if r.horizon_days < 1 then
    Except.error (RiskError.validationError "horizon_days must be at least 1")
  else if r.method = Method.monte_carlo ∧ r.mc_mode = some MCMode.student_t ∧
      r.df_t.getD 0 < 3 then
    Except.error (RiskError.validationError "df_t must be at least 3 for student_t")
  else if r.holdings = [] then
    Except.error (RiskError.validationError "holdings must be non-empty")
  else
    Except.ok ()

/-- The requested symbols that have no price history in the data source. -/
def missingSymbols (prices : List (String × List ℚ)) (r : VaRRequest) : List String :=
  (r.holdings.map Prod.fst).filter (fun s => decide (prices.lookup s = none))

/-- Modelled from the spec: a request naming a symbol with no price history
fails with an `UnknownSymbolError` carrying the offending symbol list. -/
def checkSymbols (prices : List (String × List ℚ)) (r : VaRRequest) :
    Except RiskError Unit :=
  if missingSymbols prices r = [] then Except.ok ()
  else Except.error (RiskError.unknownSymbolError (missingSymbols prices r))

/-- Modelled from the spec: the request pipeline — validation first, then
symbol resolution, and only then the numeric computation (abstracted as
`compute`; the error paths return before it is ever consulted). -/
def runRiskRequest (prices : List (String × List ℚ)) (compute : VaRRequest → ℚ)
    (r : VaRRequest) : Except RiskError ℚ :=
  match validate r with
  | Except.error e => Except.error e
  | Except.ok _ =>
    match checkSymbols prices r with
    | Except.error e => Except.error e
    | Except.ok _ => Except.ok (compute r)

/-- Character-wise upper-casing, the embedding of `symbol.toUpperCase()`
on the ASCII ticker symbols the store handles. -/
def symUpper (s : String) : String :=
  String.mk (s.data.map Char.toUpper)

/-- `Map.set`: replace the value at an existing key, else append. -/
def mapSet : List (String × ℚ) → String → ℚ → List (String × ℚ)
  | [], k, v => [(k, v)]
  | (k', v') :: rest, k, v =>
    if k' = k then (k, v) :: rest else (k', v') :: mapSet rest k v

/-- `Map.delete`: remove the key's entry. -/
def mapDelete : List (String × ℚ) → String → List (String × ℚ)
  | [], _ => []
  | (k', v') :: rest, k =>
    if k' = k then rest else (k', v') :: mapDelete rest k

/-- `Map.get`: look up the key's value. -/
def mapGet : List (String × ℚ) → String → Option ℚ
  | [], _ => none
  | (k', v') :: rest, k => if k' = k then some v' else mapGet rest k

/-- `addHolding` stores the given share count under the upper-cased
symbol, with no positivity guard. -/
def addHolding (m : List (String × ℚ)) (symbol : String) (shares : ℚ) :
    List (String × ℚ) :=
  mapSet m (symUpper symbol) shares

/-- `updateHolding` stores positive share counts and removes the entry
otherwise. -/
def updateHolding (m : List (String × ℚ)) (symbol : String) (shares : ℚ) :
    List (String × ℚ) :=
  if 0 < shares then mapSet m (symUpper symbol) shares
  else mapDelete m (symUpper symbol)

/-- `removeHolding` deletes the upper-cased symbol's entry. -/
def removeHolding (m : List (String × ℚ)) (symbol : String) : List (String × ℚ) :=
  mapDelete m (symUpper symbol)

/-- `clearHoldings` resets the store to an empty map. -/
def clearHoldings (_ : List (String × ℚ)) : List (String × ℚ) :=
  []

/-- The store invariant: at most one entry per symbol, and every stored
key is upper-cased (a fixed point of upper-casing). -/
def HoldingsInv (m : List (String × ℚ)) : Prop :=
  (m.map Prod.fst).Nodup ∧ ∀ k ∈ m.map Prod.fst, symUpper k = k

/-! ## Risk classification
(src/frontend/src/components/risk-analysis/RiskAssessmentBadge.tsx and the
RISK_LEVELS constants in src/frontend/src/lib/constants.ts) -/

/-- The four risk levels of the badge. -/
inductive RiskLevel where
  | LOW
  | MODERATE
  | HIGH
  | SEVERE
deriving DecidableEq

/-- Embedded from `RiskAssessmentBadge.tsx`: `getRiskLevel` classifies the
VaR percentage by the cascade `< 0.02`, `< 0.05`, `< 0.10`, else SEVERE. -/
def getRiskLevel (varPct : ℚ) : RiskLevel :=
  if varPct < 2/100 then RiskLevel.LOW
  else if varPct < 5/100 then RiskLevel.MODERATE
  else if varPct < 10/100 then RiskLevel.HIGH
  else RiskLevel.SEVERE

/-- Embedded from `constants.ts`: `RISK_LEVELS.LOW.threshold = 0.02`. -/
def riskLevelLowThreshold : ℚ := 2/100

/-- Embedded from `constants.ts`: `RISK_LEVELS.MODERATE.threshold = 0.05`. -/
def riskLevelModerateThreshold : ℚ := 5/100

/-- Embedded from `constants.ts`: `RISK_LEVELS.HIGH.threshold = 0.10`. -/
def riskLevelHighThreshold : ℚ := 10/100

/-! ## Component-VaR chart and table sorting
(src/unnamed/part_003 `ComponentVaRChart` and
src/frontend/src/components/risk-analysis/ComponentVaRTable.tsx) -/

/-- The `ComponentVaR` record of the API (src/frontend/src/api/types.ts). -/
structure ComponentVaREntry where
  symbol : String
  position_value : ℚ
  weight : ℚ
  component_var_dollars : ℚ
  marginal_var_dollars : ℚ
  percentage_contribution : ℚ

/-- Embedded from `ComponentVaRChart`: the comparator
`(a, b) => b.percentage_contribution - a.percentage_contribution` orders
`a` before `b` exactly when `b.percentage_contribution ≤
a.percentage_contribution`. -/
def byPctDesc (a b : ComponentVaREntry) : Bool :=
  decide (b.percentage_contribution ≤ a.percentage_contribution)

/-- Embedded from `ComponentVaRChart`: the chart sorts a copy of the
components by descending percentage contribution before rendering. -/
def chartSortedComponents (components : List ComponentVaREntry) :
    List ComponentVaREntry :=
  components.mergeSort byPctDesc

/-- The sortable table columns of `ComponentVaRTable`. -/
inductive SortField where
  | symbol
  | weight
  | component_var_dollars
  | percentage_contribution
deriving DecidableEq

/-- The sort direction of `ComponentVaRTable`. -/
inductive SortDirection where
  | asc
  | desc
deriving DecidableEq

/-- The numeric value of a non-symbol sort column. -/
def sortFieldValue : SortField → ComponentVaREntry → ℚ
  | SortField.symbol, _ => 0
  | SortField.weight, e => e.weight
  | SortField.component_var_dollars, e => e.component_var_dollars
  | SortField.percentage_contribution, e => e.percentage_contribution

/-- Embedded from `ComponentVaRTable`: the comparator
`multiplier * (a[field] - b[field])` (and `localeCompare` on the symbol
column, embedded as lexicographic string order). -/
def tableLe (field : SortField) (dir : SortDirection) (a b : ComponentVaREntry) : Bool :=
  match field, dir with
  | SortField.symbol, SortDirection.asc => decide (a.symbol ≤ b.symbol)
  | SortField.symbol, SortDirection.desc => decide (b.symbol ≤ a.symbol)
  | f, SortDirection.asc => decide (sortFieldValue f a ≤ sortFieldValue f b)
  | f, SortDirection.desc => decide (sortFieldValue f b ≤ sortFieldValue f a)

/-- Embedded from `ComponentVaRTable`: the rendered rows are the components
sorted by the selected column and direction; the default state is
`percentage_contribution` descending. -/
def tableSortedComponents (field : SortField) (dir : SortDirection)
    (components : List ComponentVaREntry) : List ComponentVaREntry :=
  components.mergeSort (tableLe field dir)

/-! ## The parametric (Gaussian) estimator (spec section 4.3)

The closed-form normal estimator is embedded over the real numbers.
`gaussPdf` is the standard normal density `φ(x) = (1/√(2π)) e^{-x²/2}`
and `gaussCdf` its distribution function; a confidence level `c`
corresponds to the quantile `z` with `gaussCdf z = c`. -/

open MeasureTheory Filter Set in
/-- The standard normal density `φ`. -/
noncomputable def gaussPdf (x : ℝ) : ℝ :=
  (Real.sqrt (2 * Real.pi))⁻¹ * Real.exp (-(1/2) * x ^ 2)

open MeasureTheory Filter Set in
/-- The standard normal distribution function `Φ`. -/
noncomputable def gaussCdf (z : ℝ) : ℝ :=
  ∫ x in Set.Iic z, gaussPdf x

open MeasureTheory Filter Set in
/-- The upper tail probability of the standard normal distribution. -/
noncomputable def tailProb (z : ℝ) : ℝ :=
  ∫ x in Set.Ioi z, gaussPdf x

/-- Modelled from the spec: parametric VaR (log-return)
`−μ_{p,T} + z_c × σ_{p,T}` where `z_c` is the standard normal quantile at
confidence `c`. -/
noncomputable def parametricVaRLog (muT sigmaT z : ℝ) : ℝ :=
  -muT + z * sigmaT

/-- Modelled from the spec: parametric ES (log-return)
`−μ_{p,T} + σ_{p,T} × φ(z_c)/(1−c)` where `c = Φ(z_c)`. -/
noncomputable def parametricESLog (muT sigmaT z : ℝ) : ℝ :=
  -muT + sigmaT * (gaussPdf z / (1 - gaussCdf z))

/-- Modelled from the spec: the exponential P&L dollar conversion
`loss_dollars = PortfolioValue × (1 − exp(−loss_log))`. -/
noncomputable def lossDollars (v x : ℝ) : ℝ :=
  v * (1 - Real.exp (-x))

/-- Summing a list of quotients by a common denominator. -/
theorem list_sum_map_div (l : List (String × ℚ)) (f : String × ℚ → ℚ) (c : ℚ) :
    (l.map (fun x => f x / c)).sum = (l.map f).sum / c := by
  induction l with
  | nil => simp
  | cons a t ih => simp [ih, add_div]

/-! ## Component VaR / Euler allocation (spec section 4.3) -/

/-- **C1.** For every parametric computation with component decomposition,
the component VaR dollars sum exactly (hence within any floating
tolerance) to the total portfolio VaR in dollars, whenever the portfolio
variance is nonzero.  The identity is a consequence of the defining
formula `CVaR_i = w_i (Σw)_i / σ_p² × TotalVaR` alone — the definition
contains no normalization step. -/
theorem claim_C1_euler_allocation (n : ℕ) (cov : Fin n → Fin n → ℚ) (w : Fin n → ℚ)
    (totalVaR : ℚ) (hvar : portfolioVariance n cov w ≠ 0) :
    ∑ i, componentVaRDollars n cov w totalVaR i = totalVaR := by
  unfold componentVaRDollars
  rw [← Finset.sum_mul, ← Finset.sum_div]
  rw [show ∑ i, w i * sigmaW n cov w i = portfolioVariance n cov w from rfl]
  rw [div_self hvar, one_mul]

/-- Witness for C1: a concrete two-asset portfolio. -/
theorem claim_C1_euler_allocation_witness :
    portfolioVariance 2 (fun _ _ => 1) (fun i => if i = 0 then (3:ℚ)/4 else 1/4) ≠ 0 ∧
      ∑ i, componentVaRDollars 2 (fun _ _ => 1)
        (fun i => if i = 0 then (3:ℚ)/4 else 1/4) 100 i = 100 := by
  have h : portfolioVariance 2 (fun _ _ => 1)
      (fun i => if i = 0 then (3:ℚ)/4 else 1/4) ≠ 0 := by
    norm_num [portfolioVariance, sigmaW, Fin.sum_univ_two]
  exact ⟨h, claim_C1_euler_allocation 2 _ _ 100 h⟩

/-- **C5.** Whenever the portfolio value is strictly positive, the dollar
weights `w_i = shares_i × P_i / PortfolioValue` sum exactly (hence within
the 1e-9 tolerance) to 1. -/
theorem claim_C5_weights_sum_to_one (holdings : List (String × ℚ)) (price : String → ℚ)
    (hpos : 0 < portfolioValue holdings price) :
    (weights holdings price).sum = 1 := by
  unfold weights weightOf
  rw [list_sum_map_div]
  exact div_self (ne_of_gt hpos)

theorem sortAsc_length (l : List ℚ) : (sortAsc l).length = l.length :=
  (List.mergeSort_perm l _).length_eq

theorem sortAsc_sorted (l : List ℚ) : (sortAsc l).Sorted (· ≤ ·) := by
  have h := List.sorted_mergeSort
    (fun a b c (h1 : decide (a ≤ b) = true) (h2 : decide (b ≤ c) = true) => by
      simp only [decide_eq_true_eq] at h1 h2 ⊢
      exact le_trans h1 h2)
    (fun a b => by
      simp only [Bool.or_eq_true, decide_eq_true_eq]
      exact le_total a b)
    l
  exact h.imp (fun hab => by simpa using hab)

/-- The quantile index is a legal index whenever `0 < c`, `c < 1` and the
sample is nonempty. -/
theorem quantileIndex_lt (c : ℚ) (n : ℕ) (h0 : 0 < c) (h1 : c < 1) (hn : 0 < n) :
    quantileIndex c n < n := by
  unfold quantileIndex
  have hnq : (0:ℚ) < (n : ℚ) := by exact_mod_cast hn
  have hfl : ⌊(1 - c) * (n : ℚ)⌋ < (n : ℤ) := by
    apply Int.floor_lt.mpr
    push_cast
    nlinarith
  omega

/-- The quantile value is attained in the sorted sample. -/
theorem empiricalQuantile_mem (c : ℚ) (rets : List ℚ) (h0 : 0 < c) (h1 : c < 1)
    (hne : rets ≠ []) : empiricalQuantile c rets ∈ sortAsc rets := by
  have hn : 0 < rets.length := List.length_pos.mpr hne
  have hidx : quantileIndex c rets.length < (sortAsc rets).length := by
    rw [sortAsc_length]; exact quantileIndex_lt c rets.length h0 h1 hn
  unfold empiricalQuantile
  rw [List.getD_eq_getElem _ _ hidx]
  exact List.getElem_mem hidx

/-- Core tail-mean inequality: the mean of the returns at or beyond the
quantile is at most the quantile, hence ES ≥ VaR. -/
theorem empiricalVaR_le_empiricalES (c : ℚ) (rets : List ℚ) (h0 : 0 < c) (h1 : c < 1)
    (hne : rets ≠ []) : empiricalVaR c rets ≤ empiricalES c rets := by
  set q := empiricalQuantile c rets with hq
  have hmem : q ∈ tailReturns c rets := by
    unfold tailReturns
    exact List.mem_filter.mpr ⟨empiricalQuantile_mem c rets h0 h1 hne, by simp⟩
  have hlen : 0 < (tailReturns c rets).length :=
    List.length_pos.mpr (List.ne_nil_of_mem hmem)
  have hbound : ∀ x ∈ tailReturns c rets, x ≤ q := by
    intro x hx
    have := (List.mem_filter.mp hx).2
    simpa using this
  have hsum : (tailReturns c rets).sum ≤ ((tailReturns c rets).length : ℚ) * q := by
    have := List.sum_le_card_nsmul (tailReturns c rets) q hbound
    simpa [nsmul_eq_mul] using this
  have hlenq : (0:ℚ) < ((tailReturns c rets).length : ℚ) := by exact_mod_cast hlen
  have hdiv : (tailReturns c rets).sum / ((tailReturns c rets).length : ℚ) ≤ q := by
    rw [div_le_iff hlenq]
    linarith [hsum]
  unfold empiricalES empiricalVaR
  rw [← hq]
  linarith [hdiv]

/-- Empirical VaR is monotone in the confidence level. -/
theorem empiricalVaR_mono (c1 c2 : ℚ) (rets : List ℚ) (h0 : 0 < c1) (h12 : c1 ≤ c2)
    (h1 : c2 < 1) (hne : rets ≠ []) : empiricalVaR c1 rets ≤ empiricalVaR c2 rets := by
  have hn : 0 < rets.length := List.length_pos.mpr hne
  have hi1 : quantileIndex c1 rets.length < rets.length :=
    quantileIndex_lt c1 rets.length h0 (lt_of_le_of_lt h12 h1) hn
  have hi2 : quantileIndex c2 rets.length < rets.length :=
    quantileIndex_lt c2 rets.length (lt_of_lt_of_le h0 h12) h1 hn
  have hile : quantileIndex c2 rets.length ≤ quantileIndex c1 rets.length := by
    unfold quantileIndex
    have hnq : (0:ℚ) ≤ (rets.length : ℚ) := by positivity
    have : ⌊(1 - c2) * (rets.length : ℚ)⌋ ≤ ⌊(1 - c1) * (rets.length : ℚ)⌋ := by
      apply Int.floor_le_floor
      nlinarith
    omega
  have hlen1 : quantileIndex c1 rets.length < (sortAsc rets).length := by
    rw [sortAsc_length]; exact hi1
  have hlen2 : quantileIndex c2 rets.length < (sortAsc rets).length := by
    rw [sortAsc_length]; exact hi2
  have hgets : (sortAsc rets).get ⟨quantileIndex c2 rets.length, hlen2⟩ ≤
      (sortAsc rets).get ⟨quantileIndex c1 rets.length, hlen1⟩ :=
    (sortAsc_sorted rets).rel_get_of_le (by exact hile)
  unfold empiricalVaR empiricalQuantile
  rw [List.getD_eq_getElem _ _ hlen1, List.getD_eq_getElem _ _ hlen2]
  simp only [List.get_eq_getElem] at hgets
  linarith [hgets]

/-! ## Historical estimator pipeline (spec section 4.2) -/

theorem portfolioValue_perm (h1 h2 : List (String × ℚ)) (price : String → ℚ)
    (hp : h1.Perm h2) : portfolioValue h1 price = portfolioValue h2 price :=
  List.Perm.sum_eq (hp.map _)

theorem historicalSeries_perm (h1 h2 : List (String × ℚ)) (price : String → ℚ)
    (ret : String → ℕ → ℚ) (T horizon : ℕ) (hp : h1.Perm h2) :
    historicalSeries h1 price ret T horizon = historicalSeries h2 price ret T horizon := by
  have hV := portfolioValue_perm h1 h2 price hp
  have hr : ∀ t, portfolioReturnAt h1 price ret t = portfolioReturnAt h2 price ret t := by
    intro t
    unfold portfolioReturnAt weightOf
    rw [hV]
    exact List.Perm.sum_eq (hp.map _)
  unfold historicalSeries portfolioReturns
  rw [funext hr]

/-- **C7.** Historical VaR is invariant under permutation of the holdings
list: permuted holdings carry the same weight multiset, the realized
portfolio-return series is unchanged, and so is the empirical quantile. -/
theorem claim_C7_historical_var_perm_invariant (c : ℚ) (h1 h2 : List (String × ℚ))
    (price : String → ℚ) (ret : String → ℕ → ℚ) (T horizon : ℕ) (hp : h1.Perm h2) :
    historicalVaR c h1 price ret T horizon = historicalVaR c h2 price ret T horizon := by
  unfold historicalVaR
  rw [historicalSeries_perm h1 h2 price ret T horizon hp]

/-- Witness for C7: swapping two concrete holdings leaves historical VaR
unchanged. -/
theorem claim_C7_historical_var_perm_invariant_witness :
    ([("AAPL", (100:ℚ)), ("MSFT", 50)]).Perm [("MSFT", (50:ℚ)), ("AAPL", 100)] ∧
      historicalVaR (95/100) [("AAPL", (100:ℚ)), ("MSFT", 50)] (fun _ => 1)
          (fun _ t => (t : ℚ)) 10 5 =
        historicalVaR (95/100) [("MSFT", (50:ℚ)), ("AAPL", 100)] (fun _ => 1)
          (fun _ t => (t : ℚ)) 10 5 := by
  refine ⟨List.Perm.swap _ _ _, ?_⟩
  exact claim_C7_historical_var_perm_invariant (95/100) _ _ _ _ 10 5 (List.Perm.swap _ _ _)

/-- An out-of-range request makes validation fail with a `ValidationError`. -/
theorem validate_error_of_bad (r : VaRRequest)
    (hbad : r.confidence ≤ 0 ∨ 1 ≤ r.confidence ∨ r.horizon_days < 1 ∨
      (r.method = Method.monte_carlo ∧ r.mc_mode = some MCMode.student_t ∧
        r.df_t.getD 0 < 3) ∨ r.holdings = []) :
    ∃ d, validate r = Except.error (RiskError.validationError d) := by
  unfold validate
  split_ifs with hc hh hd he
  · exact ⟨_, rfl⟩
  · exact ⟨_, rfl⟩
  · exact ⟨_, rfl⟩
  · exact ⟨_, rfl⟩
  · exfalso
    push_neg at hc
    rcases hbad with h | h | h | h | h
    · exact absurd h (not_le.mpr hc.1)
    · exact absurd h (not_le.mpr hc.2)
    · exact hh h
    · exact hd h
    · exact he h

/-- **C4.** Every request with an out-of-range field (confidence outside
(0,1), horizon below 1, df_t below 3 in student_t mode, or empty holdings)
fails with a `ValidationError`, for every possible computation — i.e. the
error is surfaced before any computation is attempted. -/
theorem claim_C4_validation_rejects_bad_requests (prices : List (String × List ℚ))
    (compute : VaRRequest → ℚ) (r : VaRRequest)
    (hbad : r.confidence ≤ 0 ∨ 1 ≤ r.confidence ∨ r.horizon_days < 1 ∨
      (r.method = Method.monte_carlo ∧ r.mc_mode = some MCMode.student_t ∧
        r.df_t.getD 0 < 3) ∨ r.holdings = []) :
    ∃ d, runRiskRequest prices compute r = Except.error (RiskError.validationError d) := by
  obtain ⟨d, hd⟩ := validate_error_of_bad r hbad
  refine ⟨d, ?_⟩
  unfold runRiskRequest
  rw [hd]

/-- Witness for C4: the spec's scenario `df_t = 2` in student_t mode. -/
theorem claim_C4_validation_rejects_bad_requests_witness :
    (let r : VaRRequest :=
      { holdings := [("AAPL", 100)], method := Method.monte_carlo, confidence := 95/100,
        horizon_days := 5, lookback_days := 252, mc_mode := some MCMode.student_t,
        df_t := some 2 }
     (r.confidence ≤ 0 ∨ 1 ≤ r.confidence ∨ r.horizon_days < 1 ∨
        (r.method = Method.monte_carlo ∧ r.mc_mode = some MCMode.student_t ∧
          r.df_t.getD 0 < 3) ∨ r.holdings = []) ∧
      ∃ d, runRiskRequest [] (fun _ => 0) r =
        Except.error (RiskError.validationError d)) := by
  refine ⟨Or.inr (Or.inr (Or.inr (Or.inl ⟨rfl, rfl, by norm_num⟩))), ?_⟩
  exact claim_C4_validation_rejects_bad_requests [] (fun _ => 0) _
    (Or.inr (Or.inr (Or.inr (Or.inl ⟨rfl, rfl, by norm_num⟩))))

/-- **C6.** If a requested symbol has no price history and the request is
otherwise well formed, the pipeline fails with an `UnknownSymbolError`
naming the offending symbol, for every possible computation — zero partial
results are produced. -/
theorem claim_C6_unknown_symbol_rejected (prices : List (String × List ℚ))
    (compute : VaRRequest → ℚ) (r : VaRRequest) (s : String)
    (hok : validate r = Except.ok ()) (hs : s ∈ r.holdings.map Prod.fst)
    (hnone : prices.lookup s = none) :
    runRiskRequest prices compute r =
        Except.error (RiskError.unknownSymbolError (missingSymbols prices r)) ∧
      s ∈ missingSymbols prices r := by
  have hmem : s ∈ missingSymbols prices r := by
    unfold missingSymbols
    exact List.mem_filter.mpr ⟨hs, by simp [hnone]⟩
  have hne : missingSymbols prices r ≠ [] := List.ne_nil_of_mem hmem
  constructor
  · unfold runRiskRequest
    rw [hok]
    unfold checkSymbols
    rw [if_neg hne]
  · exact hmem

/-- Witness for C6: requesting an absent symbol on a concrete data source. -/
theorem claim_C6_unknown_symbol_rejected_witness :
    (let r : VaRRequest :=
      { holdings := [("ZZZZ", 10)], method := Method.historical, confidence := 95/100,
        horizon_days := 5, lookback_days := 252, mc_mode := none, df_t := none }
     validate r = Except.ok () ∧ "ZZZZ" ∈ r.holdings.map Prod.fst ∧
      (([("AAPL", [(1:ℚ)])]).lookup "ZZZZ" = none) ∧
      runRiskRequest [("AAPL", [(1:ℚ)])] (fun _ => 0) r =
          Except.error (RiskError.unknownSymbolError
            (missingSymbols [("AAPL", [(1:ℚ)])] r)) ∧
        "ZZZZ" ∈ missingSymbols [("AAPL", [(1:ℚ)])] r) := by
  refine ⟨?_, ?_, ?_, ?_⟩
  · simp [validate]
    norm_num
  · simp
  · simp [List.lookup]
  · exact claim_C6_unknown_symbol_rejected [("AAPL", [(1:ℚ)])] (fun _ => 0) _ "ZZZZ"
      (by simp [validate]; norm_num) (by simp) (by simp [List.lookup])

/-! ## The portfolio store (src/frontend/src/store/portfolioStore.ts)

The zustand store keeps `holdings : Map<string, number>` (symbol to
shares).  A JS `Map` is embedded as an association list with unique keys,
insertion order preserved: `Map.set` replaces the value of an existing key
in place, otherwise appends; `Map.delete` removes the key's entry.
`symbol.toUpperCase()` is embedded as the character-wise basic-latin
upper-casing of the symbol. -/

theorem char_toUpper_toUpper (c : Char) : c.toUpper.toUpper = c.toUpper := by
  unfold Char.toUpper
  by_cases h : c.toNat ≥ 97 ∧ c.toNat ≤ 122
  · rw [if_pos h, if_neg]
    intro h2
    have hvalid : (c.toNat - 32).isValidChar := Or.inl (by omega)
    have hv : (Char.ofNat (c.toNat - 32)).toNat = c.toNat - 32 := by
      rw [Char.ofNat, dif_pos hvalid]
      rfl
    rw [hv] at h2
    omega
  · rw [if_neg h, if_neg h]

theorem symUpper_symUpper (s : String) : symUpper (symUpper s) = symUpper s := by
  unfold symUpper
  refine congrArg String.mk ?_
  simp [List.map_map, Function.comp_def, char_toUpper_toUpper]

theorem keys_mapSet (m : List (String × ℚ)) (k : String) (v : ℚ) :
    (mapSet m k v).map Prod.fst =
      if k ∈ m.map Prod.fst then m.map Prod.fst else m.map Prod.fst ++ [k] := by
  induction m with
  | nil => simp [mapSet]
  | cons a t ih =>
    obtain ⟨k', v'⟩ := a
    by_cases hk : k' = k
    · subst hk
      simp [mapSet]
    · by_cases hmem : k ∈ t.map Prod.fst
      · simp [mapSet, hk, ih, hmem, Ne.symm hk]
      · simp [mapSet, hk, ih, hmem, Ne.symm hk]

theorem keys_mapDelete_sublist (m : List (String × ℚ)) (k : String) :
    ((mapDelete m k).map Prod.fst).Sublist (m.map Prod.fst) := by
  induction m with
  | nil => simp [mapDelete]
  | cons a t ih =>
    obtain ⟨k', v'⟩ := a
    by_cases hk : k' = k
    · simp only [mapDelete, hk, if_pos]
      exact (List.sublist_cons_self _ _)
    · simp only [mapDelete, hk, if_neg, List.map_cons, ite_false]
      exact ih.cons₂ _

theorem mapGet_eq_none_of_not_mem (m : List (String × ℚ)) (k : String)
    (h : k ∉ m.map Prod.fst) : mapGet m k = none := by
  induction m with
  | nil => rfl
  | cons a t ih =>
    obtain ⟨k', v'⟩ := a
    simp only [List.map_cons, List.mem_cons, not_or] at h
    simp only [mapGet]
    rw [if_neg (fun hh : k' = k => h.1 hh.symm)]
    exact ih h.2

theorem mapGet_mapDelete_self (m : List (String × ℚ)) (k : String)
    (hnd : (m.map Prod.fst).Nodup) : mapGet (mapDelete m k) k = none := by
  induction m with
  | nil => rfl
  | cons a t ih =>
    obtain ⟨k', v'⟩ := a
    simp only [List.map_cons, List.nodup_cons] at hnd
    by_cases hk : k' = k
    · subst hk
      simp only [mapDelete, if_pos rfl]
      exact mapGet_eq_none_of_not_mem t k' hnd.1
    · simp only [mapDelete, if_neg hk, mapGet]
      exact ih hnd.2

theorem mapGet_mapSet_self (m : List (String × ℚ)) (k : String) (v : ℚ) :
    mapGet (mapSet m k v) k = some v := by
  induction m with
  | nil => simp [mapSet, mapGet]
  | cons a t ih =>
    obtain ⟨k', v'⟩ := a
    by_cases hk : k' = k
    · simp [mapSet, hk, mapGet]
    · simp only [mapSet, if_neg hk, mapGet]
      exact ih

theorem holdingsInv_mapSet (m : List (String × ℚ)) (k : String) (v : ℚ)
    (hinv : HoldingsInv m) (hk : symUpper k = k) : HoldingsInv (mapSet m k v) := by
  obtain ⟨hnd, hup⟩ := hinv
  constructor
  · rw [keys_mapSet]
    split_ifs with hmem
    · exact hnd
    · simp [List.nodup_append, hnd, hmem]
  · rw [keys_mapSet]
    split_ifs with hmem
    · exact hup
    · intro x hx
      rcases List.mem_append.mp hx with hx | hx
      · exact hup x hx
      · rw [List.mem_singleton.mp hx]
        exact hk

theorem holdingsInv_mapDelete (m : List (String × ℚ)) (k : String)
    (hinv : HoldingsInv m) : HoldingsInv (mapDelete m k) := by
  obtain ⟨hnd, hup⟩ := hinv
  exact ⟨hnd.sublist (keys_mapDelete_sublist m k),
    fun x hx => hup x ((keys_mapDelete_sublist m k).subset hx)⟩

/-- **C8.** Every store operation preserves the invariant (unique,
upper-cased symbol keys); `updateHolding` with a non-positive share count
removes the entry instead of storing it; `addHolding` stores whatever
share count it is given, with no positivity guard. -/
theorem claim_C8_store_operations (m : List (String × ℚ)) (s : String) (sh : ℚ)
    (hinv : HoldingsInv m) :
    HoldingsInv (addHolding m s sh) ∧ HoldingsInv (updateHolding m s sh) ∧
      HoldingsInv (removeHolding m s) ∧ HoldingsInv (clearHoldings m) ∧
      (sh ≤ 0 → mapGet (updateHolding m s sh) (symUpper s) = none) ∧
      mapGet (addHolding m s sh) (symUpper s) = some sh := by
  refine ⟨?_, ?_, ?_, ?_, ?_, ?_⟩
  · exact holdingsInv_mapSet m _ sh hinv (symUpper_symUpper s)
  · unfold updateHolding
    split_ifs
    · exact holdingsInv_mapSet m _ sh hinv (symUpper_symUpper s)
    · exact holdingsInv_mapDelete m _ hinv
  · exact holdingsInv_mapDelete m _ hinv
  · exact ⟨List.nodup_nil, by simp [clearHoldings]⟩
  · intro hsh
    unfold updateHolding
    rw [if_neg (not_lt.mpr hsh)]
    exact mapGet_mapDelete_self m _ hinv.1
  · exact mapGet_mapSet_self m _ sh

/-- Witness for C8: the operations applied to a concrete store state. -/
theorem claim_C8_store_operations_witness :
    HoldingsInv [("MSFT", (50:ℚ))] ∧
      (HoldingsInv (addHolding [("MSFT", (50:ℚ))] "aapl" (-3)) ∧
        HoldingsInv (updateHolding [("MSFT", (50:ℚ))] "aapl" (-3)) ∧
        HoldingsInv (removeHolding [("MSFT", (50:ℚ))] "aapl") ∧
        HoldingsInv (clearHoldings [("MSFT", (50:ℚ))]) ∧
        ((-3:ℚ) ≤ 0 →
          mapGet (updateHolding [("MSFT", (50:ℚ))] "aapl" (-3)) (symUpper "aapl") = none) ∧
        mapGet (addHolding [("MSFT", (50:ℚ))] "aapl" (-3)) (symUpper "aapl") = some (-3)) := by
  have hinv : HoldingsInv [("MSFT", (50:ℚ))] := by
    refine ⟨by simp, ?_⟩
    intro k hk
    simp only [List.map_cons, List.map_nil, List.mem_singleton] at hk
    subst hk
    rfl
  exact ⟨hinv, claim_C8_store_operations [("MSFT", (50:ℚ))] "aapl" (-3) hinv⟩

/-- **C9.** `getRiskLevel` is total (it returns a value of the four-element
`RiskLevel` type for every input), and its boundaries agree with the
`RISK_LEVELS` configuration thresholds: LOW iff `varPct < 0.02`, MODERATE
iff `0.02 ≤ varPct < 0.05`, HIGH iff `0.05 ≤ varPct < 0.10`, and SEVERE
iff `0.10 ≤ varPct`. -/
theorem claim_C9_risk_level_boundaries (varPct : ℚ) :
    (getRiskLevel varPct = RiskLevel.LOW ↔ varPct < riskLevelLowThreshold) ∧
      (getRiskLevel varPct = RiskLevel.MODERATE ↔
        riskLevelLowThreshold ≤ varPct ∧ varPct < riskLevelModerateThreshold) ∧
      (getRiskLevel varPct = RiskLevel.HIGH ↔
        riskLevelModerateThreshold ≤ varPct ∧ varPct < riskLevelHighThreshold) ∧
      (getRiskLevel varPct = RiskLevel.SEVERE ↔ riskLevelHighThreshold ≤ varPct) := by
  unfold getRiskLevel riskLevelLowThreshold riskLevelModerateThreshold riskLevelHighThreshold
  split_ifs with h1 h2 h3 <;>
    refine ⟨?_, ?_, ?_, ?_⟩ <;> constructor <;> intro hx <;>
    first
      | rfl
      | (constructor <;> linarith)
      | (exfalso; obtain ⟨hx1, hx2⟩ := hx; linarith)
      | (exfalso; linarith)
      | simp_all

/-- **C10.** The chart and the table (in its default state) render a
permutation of the input component list — nothing added, dropped, or
mutated — and that permutation is ordered by non-increasing percentage
contribution. -/
theorem claim_C10_component_sorting (components : List ComponentVaREntry) :
    (chartSortedComponents components).Perm components ∧
      (chartSortedComponents components).Sorted
        (fun a b => b.percentage_contribution ≤ a.percentage_contribution) ∧
      (tableSortedComponents SortField.percentage_contribution SortDirection.desc
          components).Perm components ∧
      (tableSortedComponents SortField.percentage_contribution SortDirection.desc
          components).Sorted
        (fun a b => b.percentage_contribution ≤ a.percentage_contribution) := by
  have htrans : ∀ a b c : ComponentVaREntry, byPctDesc a b = true →
      byPctDesc b c = true → byPctDesc a c = true := by
    intro a b c h1 h2
    simp only [byPctDesc, decide_eq_true_eq] at h1 h2 ⊢
    exact le_trans h2 h1
  have htotal : ∀ a b : ComponentVaREntry, byPctDesc a b || byPctDesc b a := by
    intro a b
    simp only [byPctDesc, Bool.or_eq_true, decide_eq_true_eq]
    exact le_total b.percentage_contribution a.percentage_contribution
  have htLe : tableLe SortField.percentage_contribution SortDirection.desc = byPctDesc := by
    funext a b
    rfl
  refine ⟨List.mergeSort_perm components byPctDesc, ?_, ?_, ?_⟩
  · have h := List.sorted_mergeSort htrans htotal components
    exact h.imp (fun hab => by simpa [byPctDesc] using hab)
  · unfold tableSortedComponents
    rw [htLe]
    exact List.mergeSort_perm components byPctDesc
  · unfold tableSortedComponents
    rw [htLe]
    have h := List.sorted_mergeSort htrans htotal components
    exact h.imp (fun hab => by simpa [byPctDesc] using hab)

/-- Witness for C5: a concrete two-holding portfolio at unit prices. -/
theorem claim_C5_weights_sum_to_one_witness :
    0 < portfolioValue [("AAPL", 100), ("MSFT", 50)] (fun _ => 2) ∧
      (weights [("AAPL", 100), ("MSFT", 50)] (fun _ => 2)).sum = 1 := by
  have h : 0 < portfolioValue [("AAPL", 100), ("MSFT", 50)] (fun _ => (2:ℚ)) := by
    norm_num [portfolioValue]
  exact ⟨h, claim_C5_weights_sum_to_one _ _ h⟩

/-! ## Gaussian analysis for the parametric estimator -/

open MeasureTheory Filter Set

theorem gaussPdf_pos (x : ℝ) : 0 < gaussPdf x := by
  unfold gaussPdf
  have h2pi : (0:ℝ) < 2 * Real.pi := by positivity
  exact mul_pos (inv_pos.mpr (Real.sqrt_pos.mpr h2pi)) (Real.exp_pos _)

theorem continuous_gaussPdf : Continuous gaussPdf := by
  unfold gaussPdf
  have h1 : Continuous fun x : ℝ => -(1/2) * x ^ 2 := continuous_const.mul (continuous_pow 2)
  exact continuous_const.mul (Real.continuous_exp.comp h1)

theorem integrable_gaussPdf : MeasureTheory.Integrable gaussPdf :=
  (integrable_exp_neg_mul_sq (by norm_num : (0:ℝ) < 1/2)).const_mul _

theorem integral_gaussPdf : ∫ x, gaussPdf x = 1 := by
  unfold gaussPdf
  rw [MeasureTheory.integral_mul_left, integral_gaussian]
  rw [show Real.pi / (1/2) = 2 * Real.pi by ring]
  exact inv_mul_cancel₀ (ne_of_gt (Real.sqrt_pos.mpr (by positivity)))

theorem gaussCdf_add_tailProb (z : ℝ) : gaussCdf z + tailProb z = 1 := by
  unfold gaussCdf tailProb
  rw [intervalIntegral.integral_Iic_add_Ioi integrable_gaussPdf.integrableOn
    integrable_gaussPdf.integrableOn]
  exact integral_gaussPdf

theorem tailProb_eq (z : ℝ) : 1 - gaussCdf z = tailProb z := by
  have := gaussCdf_add_tailProb z
  linarith

theorem tailProb_pos (z : ℝ) : 0 < tailProb z := by
  have hle : ∫ x in Set.Ioc z (z + 1), gaussPdf x ≤ tailProb z := by
    unfold tailProb
    refine MeasureTheory.setIntegral_mono_set integrable_gaussPdf.integrableOn ?_ ?_
    · exact Filter.Eventually.of_forall (fun x => (gaussPdf_pos x).le)
    · exact HasSubset.Subset.eventuallyLE Set.Ioc_subset_Ioi_self
  have hpos : 0 < ∫ x in Set.Ioc z (z + 1), gaussPdf x := by
    rw [← intervalIntegral.integral_of_le (by linarith : z ≤ z + 1)]
    exact intervalIntegral.intervalIntegral_pos_of_pos
      (continuous_gaussPdf.intervalIntegrable z (z + 1)) gaussPdf_pos (by linarith)
  linarith

theorem gaussCdf_strictMono {z1 z2 : ℝ} (h : z1 < z2) : gaussCdf z1 < gaussCdf z2 := by
  have hdiff : gaussCdf z2 - gaussCdf z1 = ∫ x in z1..z2, gaussPdf x := by
    unfold gaussCdf
    exact intervalIntegral.integral_Iic_sub_Iic integrable_gaussPdf.integrableOn
      integrable_gaussPdf.integrableOn
  have hpos : 0 < ∫ x in z1..z2, gaussPdf x :=
    intervalIntegral.intervalIntegral_pos_of_pos
      (continuous_gaussPdf.intervalIntegrable z1 z2) gaussPdf_pos h
  linarith

theorem integrableOn_id_mul_gaussPdf (s : Set ℝ) :
    MeasureTheory.IntegrableOn (fun x => x * gaussPdf x) s := by
  have h := integrable_rpow_mul_exp_neg_mul_sq (by norm_num : (0:ℝ) < 1/2)
    (by norm_num : (-1:ℝ) < 1)
  simp only [Real.rpow_one] at h
  have heq : (fun x : ℝ => x * gaussPdf x) =
      fun x => (Real.sqrt (2 * Real.pi))⁻¹ * (x * Real.exp (-(1/2) * x ^ 2)) := by
    funext x
    unfold gaussPdf
    ring
  rw [heq]
  exact (h.const_mul _).integrableOn

theorem hasDerivAt_neg_gaussPdf (x : ℝ) :
    HasDerivAt (fun y => -gaussPdf y) (x * gaussPdf x) x := by
  have h1 : HasDerivAt (fun y : ℝ => -(1/2) * y ^ 2) (-(1/2) * (2 * x ^ 1)) x := by
    exact (hasDerivAt_pow 2 x).const_mul _
  have h2 := h1.exp
  have h3 := (h2.const_mul ((Real.sqrt (2 * Real.pi))⁻¹)).neg
  have heq : -((Real.sqrt (2 * Real.pi))⁻¹ *
      (Real.exp (-(1/2) * x ^ 2) * (-(1/2) * (2 * x ^ 1)))) = x * gaussPdf x := by
    unfold gaussPdf
    ring
  rw [heq] at h3
  exact h3

theorem tendsto_neg_gaussPdf : Filter.Tendsto (fun x => -gaussPdf x) Filter.atTop (nhds 0) := by
  have h1 : Filter.Tendsto (fun x : ℝ => x ^ 2) Filter.atTop Filter.atTop :=
    tendsto_pow_atTop (by norm_num)
  have h2 : Filter.Tendsto (fun x : ℝ => -(1/2) * x ^ 2) Filter.atTop Filter.atBot :=
    (tendsto_const_mul_atBot_of_neg (by norm_num)).mpr h1
  have h3 : Filter.Tendsto (fun x : ℝ => Real.exp (-(1/2) * x ^ 2)) Filter.atTop (nhds 0) :=
    Real.tendsto_exp_atBot.comp h2
  have h4 := (h3.const_mul ((Real.sqrt (2 * Real.pi))⁻¹)).neg
  simp only [mul_zero, neg_zero] at h4
  exact h4

theorem integral_Ioi_id_mul_gaussPdf (z : ℝ) :
    ∫ x in Set.Ioi z, x * gaussPdf x = gaussPdf z := by
  have h : ∫ x in Set.Ioi z, x * gaussPdf x = 0 - -gaussPdf z :=
    MeasureTheory.integral_Ioi_of_hasDerivAt_of_tendsto'
      (fun x _ => hasDerivAt_neg_gaussPdf x)
      (integrableOn_id_mul_gaussPdf (Set.Ioi z)) tendsto_neg_gaussPdf
  rw [h]
  ring

theorem mills_strict (z : ℝ) : z * tailProb z < gaussPdf z := by
  have hsplit : Set.Ioi z = Set.Ioc z (z + 1) ∪ Set.Ioi (z + 1) :=
    (Set.Ioc_union_Ioi_eq_Ioi (by linarith)).symm
  have hdisj : Disjoint (Set.Ioc z (z + 1)) (Set.Ioi (z + 1)) :=
    Set.Ioc_disjoint_Ioi le_rfl
  have htail : tailProb z =
      (∫ x in Set.Ioc z (z + 1), gaussPdf x) + ∫ x in Set.Ioi (z + 1), gaussPdf x := by
    unfold tailProb
    rw [hsplit]
    exact MeasureTheory.setIntegral_union hdisj measurableSet_Ioi
      integrable_gaussPdf.integrableOn integrable_gaussPdf.integrableOn
  have hx : gaussPdf z =
      (∫ x in Set.Ioc z (z + 1), x * gaussPdf x) + ∫ x in Set.Ioi (z + 1), x * gaussPdf x := by
    rw [← integral_Ioi_id_mul_gaussPdf z, hsplit]
    exact MeasureTheory.setIntegral_union hdisj measurableSet_Ioi
      (integrableOn_id_mul_gaussPdf _) (integrableOn_id_mul_gaussPdf _)
  have hb1 : z * (∫ x in Set.Ioc z (z + 1), gaussPdf x) ≤
      ∫ x in Set.Ioc z (z + 1), x * gaussPdf x := by
    rw [← MeasureTheory.integral_mul_left]
    refine MeasureTheory.setIntegral_mono_on
      (integrable_gaussPdf.integrableOn.const_mul _)
      (integrableOn_id_mul_gaussPdf _) measurableSet_Ioc ?_
    intro x hmx
    exact mul_le_mul_of_nonneg_right hmx.1.le (gaussPdf_pos x).le
  have hb2 : (z + 1) * (∫ x in Set.Ioi (z + 1), gaussPdf x) ≤
      ∫ x in Set.Ioi (z + 1), x * gaussPdf x := by
    rw [← MeasureTheory.integral_mul_left]
    refine MeasureTheory.setIntegral_mono_on
      (integrable_gaussPdf.integrableOn.const_mul _)
      (integrableOn_id_mul_gaussPdf _) measurableSet_Ioi ?_
    intro x hmx
    exact mul_le_mul_of_nonneg_right (le_of_lt hmx) (gaussPdf_pos x).le
  have htp : 0 < ∫ x in Set.Ioi (z + 1), gaussPdf x := tailProb_pos (z + 1)
  calc z * tailProb z
      = z * (∫ x in Set.Ioc z (z + 1), gaussPdf x)
        + z * (∫ x in Set.Ioi (z + 1), gaussPdf x) := by rw [htail]; ring
    _ < z * (∫ x in Set.Ioc z (z + 1), gaussPdf x)
        + (z + 1) * (∫ x in Set.Ioi (z + 1), gaussPdf x) := by nlinarith
    _ ≤ (∫ x in Set.Ioc z (z + 1), x * gaussPdf x)
        + (∫ x in Set.Ioi (z + 1), x * gaussPdf x) := by linarith
    _ = gaussPdf z := hx.symm

theorem parametricVaRLog_le_parametricESLog (muT sigmaT z : ℝ) (h : 0 ≤ sigmaT) :
    parametricVaRLog muT sigmaT z ≤ parametricESLog muT sigmaT z := by
  unfold parametricVaRLog parametricESLog
  rw [tailProb_eq]
  have ht := tailProb_pos z
  have hm : z ≤ gaussPdf z / tailProb z := (le_div_iff ht).mpr (mills_strict z).le
  have h2 : sigmaT * z ≤ sigmaT * (gaussPdf z / tailProb z) :=
    mul_le_mul_of_nonneg_left hm h
  linarith [h2, mul_comm z sigmaT]

theorem parametricVaRLog_lt_parametricESLog (muT sigmaT z : ℝ) (h : 0 < sigmaT) :
    parametricVaRLog muT sigmaT z < parametricESLog muT sigmaT z := by
  unfold parametricVaRLog parametricESLog
  rw [tailProb_eq]
  have ht := tailProb_pos z
  have hm : z < gaussPdf z / tailProb z := (lt_div_iff ht).mpr (mills_strict z)
  have h2 : sigmaT * z < sigmaT * (gaussPdf z / tailProb z) :=
    mul_lt_mul_of_pos_left hm h
  linarith [h2, mul_comm z sigmaT]

theorem parametricVaRLog_mono (muT sigmaT z1 z2 : ℝ) (h : 0 ≤ sigmaT)
    (hc : gaussCdf z1 ≤ gaussCdf z2) :
    parametricVaRLog muT sigmaT z1 ≤ parametricVaRLog muT sigmaT z2 := by
  unfold parametricVaRLog
  have hz : z1 ≤ z2 := by
    by_contra hlt
    push_neg at hlt
    exact absurd hc (not_le.mpr (gaussCdf_strictMono hlt))
  have := mul_le_mul_of_nonneg_right hz h
  linarith

theorem lossDollars_mono (v x1 x2 : ℝ) (hv : 0 ≤ v) (h : x1 ≤ x2) :
    lossDollars v x1 ≤ lossDollars v x2 := by
  unfold lossDollars
  have hexp : Real.exp (-x2) ≤ Real.exp (-x1) := Real.exp_le_exp.mpr (by linarith)
  exact mul_le_mul_of_nonneg_left (by linarith) hv

/-- **C2.** For every method, ES is at least VaR on the same distribution:
the historical estimator's tail mean dominates its quantile on the
realized horizon-return sample, the Monte Carlo estimator's tail mean
dominates its quantile on the simulated outcomes, and the closed-form
parametric ES dominates parametric VaR (strictly whenever the scaled
volatility is positive, i.e. for non-degenerate normal distributions);
the exponential dollar conversion preserves the inequality, so the dollar
results compare the same way as the log-return results. -/
theorem claim_C2_es_ge_var :
    (∀ (c : ℚ) (holdings : List (String × ℚ)) (price : String → ℚ)
        (ret : String → ℕ → ℚ) (T horizon : ℕ), 0 < c → c < 1 →
        historicalSeries holdings price ret T horizon ≠ [] →
        historicalVaR c holdings price ret T horizon ≤
          historicalES c holdings price ret T horizon) ∧
      (∀ (c : ℚ) (outcomes : List ℚ), 0 < c → c < 1 → outcomes ≠ [] →
        mcVaR c outcomes ≤ mcES c outcomes) ∧
      (∀ muT sigmaT z : ℝ, 0 ≤ sigmaT →
        parametricVaRLog muT sigmaT z ≤ parametricESLog muT sigmaT z) ∧
      (∀ muT sigmaT z : ℝ, 0 < sigmaT →
        parametricVaRLog muT sigmaT z < parametricESLog muT sigmaT z) ∧
      (∀ v x1 x2 : ℝ, 0 ≤ v → x1 ≤ x2 → lossDollars v x1 ≤ lossDollars v x2) := by
  refine ⟨?_, ?_, ?_, ?_, ?_⟩
  · intro c holdings price ret T horizon h0 h1 hne
    exact empiricalVaR_le_empiricalES c _ h0 h1 hne
  · intro c outcomes h0 h1 hne
    exact empiricalVaR_le_empiricalES c _ h0 h1 hne
  · exact parametricVaRLog_le_parametricESLog
  · exact parametricVaRLog_lt_parametricESLog
  · exact lossDollars_mono

/-- A nonempty block-sum sample, for the concrete witnesses. -/
theorem blockSums_ne_nil (h : ℕ) (l : List ℚ) (hpos : 0 < h) (hlen : h ≤ l.length) :
    blockSums h l ≠ [] := by
  rw [blockSums]
  rw [dif_pos ⟨hpos, hlen⟩]
  simp

/-- Witness for C2: each conjunct applied at a concrete input. -/
theorem claim_C2_es_ge_var_witness :
    ((0:ℚ) < 1/2 ∧ (1/2:ℚ) < 1 ∧
      historicalSeries [("AAPL", 1)] (fun _ => 1) (fun _ _ => 1) 1 1 ≠ [] ∧
      historicalVaR (1/2) [("AAPL", 1)] (fun _ => 1) (fun _ _ => 1) 1 1 ≤
        historicalES (1/2) [("AAPL", 1)] (fun _ => 1) (fun _ _ => 1) 1 1) ∧
      (mcVaR (1/2) [1, -1] ≤ mcES (1/2) [1, -1]) ∧
      (parametricVaRLog 0 1 0 ≤ parametricESLog 0 1 0) ∧
      (parametricVaRLog 0 1 0 < parametricESLog 0 1 0) ∧
      (lossDollars 1 0 ≤ lossDollars 1 1) := by
  have hne : historicalSeries [("AAPL", 1)] (fun _ => 1) (fun _ _ => 1) 1 1 ≠ [] := by
    apply blockSums_ne_nil 1 _ (by norm_num)
    simp [portfolioReturns]
  refine ⟨⟨by norm_num, by norm_num, hne,
      claim_C2_es_ge_var.1 (1/2) _ _ _ 1 1 (by norm_num) (by norm_num) hne⟩,
    claim_C2_es_ge_var.2.1 (1/2) [1, -1] (by norm_num) (by norm_num) (by simp),
    claim_C2_es_ge_var.2.2.1 0 1 0 (by norm_num),
    claim_C2_es_ge_var.2.2.2.1 0 1 0 (by norm_num),
    claim_C2_es_ge_var.2.2.2.2 1 0 1 (by norm_num) (by norm_num)⟩

/-- **C3.** For a fixed method, horizon and input data, VaR is monotone
non-decreasing in the confidence level: for the historical and Monte Carlo
estimators the empirical quantile index can only move further into the
loss tail as the confidence grows, and for the parametric estimator the
normal quantile `z_c` is monotone in `c = Φ(z_c)`. -/
theorem claim_C3_var_monotone_in_confidence :
    (∀ (c1 c2 : ℚ) (holdings : List (String × ℚ)) (price : String → ℚ)
        (ret : String → ℕ → ℚ) (T horizon : ℕ), 0 < c1 → c1 ≤ c2 → c2 < 1 →
        historicalSeries holdings price ret T horizon ≠ [] →
        historicalVaR c1 holdings price ret T horizon ≤
          historicalVaR c2 holdings price ret T horizon) ∧
      (∀ (c1 c2 : ℚ) (outcomes : List ℚ), 0 < c1 → c1 ≤ c2 → c2 < 1 → outcomes ≠ [] →
        mcVaR c1 outcomes ≤ mcVaR c2 outcomes) ∧
      (∀ muT sigmaT z1 z2 : ℝ, 0 ≤ sigmaT → gaussCdf z1 ≤ gaussCdf z2 →
        parametricVaRLog muT sigmaT z1 ≤ parametricVaRLog muT sigmaT z2) := by
  refine ⟨?_, ?_, ?_⟩
  · intro c1 c2 holdings price ret T horizon h0 h12 h1 hne
    exact empiricalVaR_mono c1 c2 _ h0 h12 h1 hne
  · intro c1 c2 outcomes h0 h12 h1 hne
    exact empiricalVaR_mono c1 c2 _ h0 h12 h1 hne
  · exact parametricVaRLog_mono

/-- Witness for C3: each conjunct applied at a concrete input. -/
theorem claim_C3_var_monotone_in_confidence_witness :
    ((0:ℚ) < 1/2 ∧ (1/2:ℚ) ≤ 3/4 ∧ (3/4:ℚ) < 1 ∧
      historicalSeries [("AAPL", 1)] (fun _ => 1) (fun _ _ => 1) 1 1 ≠ [] ∧
      historicalVaR (1/2) [("AAPL", 1)] (fun _ => 1) (fun _ _ => 1) 1 1 ≤
        historicalVaR (3/4) [("AAPL", 1)] (fun _ => 1) (fun _ _ => 1) 1 1) ∧
      (mcVaR (1/2) [1, -1] ≤ mcVaR (3/4) [1, -1]) ∧
      (parametricVaRLog 0 1 0 ≤ parametricVaRLog 0 1 0) := by
  have hne : historicalSeries [("AAPL", 1)] (fun _ => 1) (fun _ _ => 1) 1 1 ≠ [] := by
    apply blockSums_ne_nil 1 _ (by norm_num)
    simp [portfolioReturns]
  refine ⟨⟨by norm_num, by norm_num, by norm_num, hne,
      claim_C3_var_monotone_in_confidence.1 (1/2) (3/4) _ _ _ 1 1 (by norm_num)
        (by norm_num) (by norm_num) hne⟩,
    claim_C3_var_monotone_in_confidence.2.1 (1/2) (3/4) [1, -1] (by norm_num)
      (by norm_num) (by norm_num) (by simp),
    claim_C3_var_monotone_in_confidence.2.2 0 1 0 0 (by norm_num) le_rfl⟩

end RiskEngine
